import Mathlib

set_option maxHeartbeats 1000000

namespace DSLab

/-! Shallow embedding of the feature-extraction and evaluation pipeline of
this repository: the histogram feature transformer and label reduction of
`code/classification/randomforest_hist_classification.py`, and the
cache / split / resample preprocessing of `code/prediction/xgboost_prediction.py`.
Numeric array entries are modelled exactly, as rationals; a raw series tensor of
shape (N, V, D) is a function of (sample, variable, day) together with its
dimensions. External library calls (sklearn, imblearn, pickle I/O) appear either
as oracle parameters or, where a claim depends on their contract, as definitions
modelled from the spec (marked as such in their doc comments). -/

/-- np.min of a list of values (defaulting to 0 on the empty list, which the
source never hits: np.min is only applied to nonempty slices). -/
def listMin : List ℚ → ℚ
  | [] => 0
  | x :: xs => xs.foldl min x

/-- np.max of a list of values (same convention as listMin on the empty list). -/
def listMax : List ℚ → ℚ
  | [] => 0
  | x :: xs => xs.foldl max x

/-- np.histogram expands a degenerate requested range [c, c] to [c - 0.5, c + 0.5];
this is the lower end of the effective range. -/
def histLo (lo hi : ℚ) : ℚ := if lo = hi then lo - 1/2 else lo

/-- upper end of the effective histogram range, see histLo. -/
def histHi (lo hi : ℚ) : ℚ := if lo = hi then hi + 1/2 else hi

/-- bin assignment of np.histogram for a value inside the effective range [a, b]:
B equal-width bins, index ⌊B (x - a) / (b - a)⌋, the right edge x = b counted in
the last bin (clamp to B - 1). -/
def binIndex (a b : ℚ) (B : ℕ) (x : ℚ) : ℕ :=
  min (⌊(B : ℚ) * (x - a) / (b - a)⌋.toNat) (B - 1)

/-- np.histogram(xs, bins = B, range = (lo, hi))[0]: the length-B vector of bin
counts; values outside the effective range are dropped. -/
def histogramCounts (lo hi : ℚ) (B : ℕ) (xs : List ℚ) : List ℕ :=
  (List.range B).map (fun i =>
    xs.countP (fun x =>
      decide (histLo lo hi ≤ x ∧ x ≤ histHi lo hi ∧
        binIndex (histLo lo hi) (histHi lo hi) B x = i)))

/-- the tensor X (indexed sample, variable, day) restricted to sample s and
variable v: the D-day series np.histogram is applied to. -/
def dayRow (X : ℕ → ℕ → ℕ → ℚ) (D s v : ℕ) : List ℚ :=
  (List.range D).map (fun d => X s v d)

/-- all (sample, day) values of variable v in the current batch: the data that
np.min / np.max range over in HistogramTransformer._histograms_for_variable. -/
def varValues (X : ℕ → ℕ → ℕ → ℚ) (N D v : ℕ) : List ℚ :=
  (List.range N).flatMap (fun s => dayRow X D s v)

/-- HistogramTransformer._histograms_for_variable on the slice data[:, v, :]:
one histogram per sample, all over the batch-global range of variable v. -/
def histogramsForVariable (X : ℕ → ℕ → ℕ → ℚ) (N D B v : ℕ) : List (List ℕ) :=
  (List.range N).map (fun s =>
    histogramCounts (listMin (varValues X N D v)) (listMax (varValues X N D v)) B
      (dayRow X D s v))

/-- HistogramTransformer.transform: the per-variable histograms are stacked
(shape (V, N, B)), np.swapaxes(·, 0, 1) turns this into (N, V, B), and np.reshape
flattens to (N, V*B); so row s is the concatenation over v of the v-th variable's
histogram of sample s (variable-major, bin-minor). -/
def transform (X : ℕ → ℕ → ℕ → ℚ) (N V D B : ℕ) : List (List ℕ) :=
  (List.range N).map (fun s =>
    ((List.range V).map (fun v => (histogramsForVariable X N D B v).getD s [])).flatten)

/-- Claim C1's wording of bin membership: bin b of the fixed-width B-bin partition
of [lo, hi] is [lo + b·w, lo + (b+1)·w) with w = (hi - lo)/B, the last bin
right-closed at hi. -/
def fallsInBin (lo hi : ℚ) (B b : ℕ) (x : ℚ) : Prop :=
  lo + b * ((hi - lo) / B) ≤ x ∧
    (x < lo + (b + 1) * ((hi - lo) / B) ∨ (b = B - 1 ∧ x ≤ hi))

instance (lo hi : ℚ) (B b : ℕ) (x : ℚ) : Decidable (fallsInBin lo hi B b x) := by
  unfold fallsInBin
  exact inferInstance

/-- RandomForestClassification._get_labels label reduction:
np.apply_along_axis(lambda a: 1 if 1 in a else 0, axis=1, arr=raw_labels). -/
def getLabels (rawLabels : List (List ℚ)) : List ℕ :=
  rawLabels.map (fun row => if (1 : ℚ) ∈ row then 1 else 0)

/-- the HistogramTransformer object itself: __init__ stores only n_bins. -/
structure HistogramTransformerS where
  n_bins : ℕ

/-- an argument to fit/transform: a raw series tensor with its dimensions. -/
structure TensorIn where
  N : ℕ
  V : ℕ
  D : ℕ
  val : ℕ → ℕ → ℕ → ℚ

/-- HistogramTransformer.transform as a method: output depends only on the
argument tensor and the stored n_bins. -/
def htTransform (t : HistogramTransformerS) (X : TensorIn) : List (List ℕ) :=
  transform X.val X.N X.V X.D t.n_bins

/-- HistogramTransformer.fit: "No fitting required", returns self unchanged. -/
def htFit (t : HistogramTransformerS) (_X : TensorIn) : HistogramTransformerS := t

/-- one call made to the transformer object. -/
inductive HTCall where
  | fitC : TensorIn → HTCall
  | transformC : TensorIn → HTCall

/-- the state of the transformer after one call: transform writes no attribute,
fit returns self. -/
def htStep (t : HistogramTransformerS) : HTCall → HistogramTransformerS
  | HTCall.fitC X => htFit t X
  | HTCall.transformC _ => t

/-- the state of the transformer after a sequence of interleaved calls. -/
def htRun (t : HistogramTransformerS) (cs : List HTCall) : HistogramTransformerS :=
  cs.foldl htStep t

/-- a numpy double: a finite rational or one of the IEEE specials. -/
inductive PyFloat where
  | fin : ℚ → PyFloat
  | nan : PyFloat
  | posinf : PyFloat
  | neginf : PyFloat
deriving DecidableEq

/-- the largest finite IEEE-754 double, the substitute np.nan_to_num uses
for +inf (and its negation for -inf). -/
def floatMax : ℚ := (2 - 1 / 2 ^ 52) * 2 ^ 1023

/-- np.nan_to_num on one entry: NaN ↦ 0, +inf ↦ DBL_MAX, -inf ↦ -DBL_MAX,
finite values unchanged. -/
def nanToNum : PyFloat → PyFloat
  | PyFloat.nan => PyFloat.fin 0
  | PyFloat.posinf => PyFloat.fin floatMax
  | PyFloat.neginf => PyFloat.fin (-floatMax)
  | PyFloat.fin q => PyFloat.fin q

/-- whether a value is finite (neither NaN nor an infinity). -/
def isFinite : PyFloat → Bool
  | PyFloat.fin _ => true
  | _ => false

/-- a row of the engineered feature matrix. -/
abbrev FeatRow := List PyFloat

/-- the engineered feature matrix. -/
abbrev FeatMatrix := List FeatRow

/-- failure modes of opening / deserialising the feature pickle: the source
catches exactly FileNotFoundError; every other failure propagates. -/
inductive ReadError where
  | fileNotFound : ReadError
  | otherError : String → ReadError
deriving DecidableEq

/-- the (X_train, X_test, y_train, y_test) quadruple. -/
structure SplitResult where
  Xtrain : FeatMatrix
  Xtest : FeatMatrix
  ytrain : List ℚ
  ytest : List ℚ
deriving DecidableEq

/-- number of samples of class c in a label vector. -/
def countLabel {α : Type} [DecidableEq α] (ys : List α) (c : α) : ℕ :=
  ys.countP (fun y => decide (y = c))

/-- Modelled from the spec: imblearn's SMOTE().fit_resample (an external library,
not under src/) appends synthetic minority samples — interpolations between
same-class nearest neighbours — until both classes reach the majority count; the
original samples are kept in place and the synthetic ones appended. The label
bookkeeping is exact here; the synthetic feature rows are an oracle parameter
(`synth`) at the call site. -/
def smoteLabels (ys : List ℚ) : List ℚ :=
  ys ++ List.replicate (countLabel ys 1 - countLabel ys 0) 0
     ++ List.replicate (countLabel ys 0 - countLabel ys 1) 1

/-- class imbalance of a binary label vector: absolute difference of the two
class proportions (0 for a perfectly balanced vector). -/
def labelImbalance (ys : List ℚ) : ℚ :=
  |((countLabel ys 1 : ℚ) - (countLabel ys 0 : ℚ))| / ys.length

/-- the tail of XGBoostPredict.preprocess_as_prediction once a feature matrix is
in hand: features = np.nan_to_num(features); stratified train_test_split (the
sklearn call is the oracle `split`); SMOTE().fit_resample applied to the training
partition only (synthetic rows `synth` appended, labels as in smoteLabels);
X_test and y_test are returned exactly as the split produced them. -/
def splitAndResample (F : FeatMatrix) (labels : List ℚ)
    (split : FeatMatrix → List ℚ → SplitResult) (synth : FeatMatrix) : SplitResult :=
  let s := split (F.map (fun r => r.map nanToNum)) labels
  SplitResult.mk (s.Xtrain ++ synth) s.Xtest (smoteLabels s.ytrain) s.ytest

/-- XGBoostPredict.preprocess_as_prediction: try to unpickle (features,
feature_keys) from the cache path; a FileNotFoundError falls back to computing
the features and writes the cache (the returned flag records whether that write
happened); any other read or deserialisation failure propagates unchanged. The
loaded or computed matrix then goes through splitAndResample; no compatibility
check of any kind is applied to a loaded record. -/
def preprocessAsPrediction (cacheRead : Except ReadError (FeatMatrix × List String))
    (computed : FeatMatrix × List String) (labels : List ℚ)
    (split : FeatMatrix → List ℚ → SplitResult) (synth : FeatMatrix) :
    Except ReadError (SplitResult × Bool) :=
  match cacheRead with
  | Except.ok fk => Except.ok (splitAndResample fk.1 labels split synth, false)
  | Except.error ReadError.fileNotFound =>
      Except.ok (splitAndResample computed.1 labels split synth, true)
  | Except.error e => Except.error e

/-- the ValueError message class of sklearn's stratified fold construction. -/
def nSplitsErrMsg : String :=
  "n_splits cannot be greater than the number of members in each class"

/-- Modelled from the spec: sklearn's StratifiedKFold (an external collaborator)
fails fold construction with a ValueError when a class has fewer members than the
number of splits — "if fewer than k positive samples exist, stratified fold
construction fails with a configuration error (reported, not silently downgraded
to non-stratified folding)". Nothing is scored in that case. -/
def stratifiedKFoldCheck (k : ℕ) (labels : List ℕ) : Except String Unit :=
  if countLabel labels 1 < k ∨ countLabel labels 0 < k then Except.error nSplitsErrMsg
  else Except.ok ()

/-- one Output(...).write_output() metric record. -/
structure MetricRecord where
  classifier : String
  task : String
  dataType : String
  defLabel : String
  metric : String
  scores : List ℚ
deriving DecidableEq

/-- RandomForestClassification.evaluate_simulated with the external classifier
and metric computations abstracted: `foldScores` stands for the per-fold score
lists cross_validate would return for F1, ROCAUC and Accuracy on a valid
stratified folding; fold construction fails as in stratifiedKFoldCheck, and on
failure the error propagates to the caller and no metric record is produced. -/
def evaluateSimulated (defLabel : String) (k : ℕ) (rawLabels : List (List ℚ))
    (foldScores : List (List ℚ)) : Except String (List MetricRecord) :=
  match stratifiedKFoldCheck k (getLabels rawLabels) with
  | Except.error e => Except.error e
  | Except.ok _ =>
      Except.ok ((List.zip ["F1", "ROCAUC", "Accuracy"] foldScores).map (fun m =>
        MetricRecord.mk "randomforest" "classification" "simulated" defLabel m.1 m.2))

/-- fixture tensor for witnesses: the value of a cell is its day index. -/
def rampTensor : ℕ → ℕ → ℕ → ℚ := fun _ _ d => d

/-- fixture tensor for witnesses and counterexamples: constant value c. -/
def constTensor (c : ℚ) : ℕ → ℕ → ℕ → ℚ := fun _ _ _ => c

/-! Helper lemmas about the list-level building blocks. -/

lemma foldl_min_le_init : ∀ (l : List ℚ) (a : ℚ), l.foldl min a ≤ a := by
  intro l
  induction l with
  | nil => intro a; exact le_refl a
  | cons x l ih => intro a; exact le_trans (ih (min a x)) (min_le_left a x)

lemma foldl_min_le_mem : ∀ (l : List ℚ) (a x : ℚ), x ∈ l → l.foldl min a ≤ x := by
  intro l
  induction l with
  | nil => intro a x hx; cases hx
  | cons y l ih =>
    intro a x hx
    rcases List.mem_cons.1 hx with rfl | hx
    · exact le_trans (foldl_min_le_init l (min a x)) (min_le_right a x)
    · exact ih (min a y) x hx

lemma init_le_foldl_max : ∀ (l : List ℚ) (a : ℚ), a ≤ l.foldl max a := by
  intro l
  induction l with
  | nil => intro a; exact le_refl a
  | cons x l ih => intro a; exact le_trans (le_max_left a x) (ih (max a x))

lemma mem_le_foldl_max : ∀ (l : List ℚ) (a x : ℚ), x ∈ l → x ≤ l.foldl max a := by
  intro l
  induction l with
  | nil => intro a x hx; cases hx
  | cons y l ih =>
    intro a x hx
    rcases List.mem_cons.1 hx with rfl | hx
    · exact le_trans (le_max_right a x) (init_le_foldl_max l (max a x))
    · exact ih (max a y) x hx

lemma listMin_le {l : List ℚ} {x : ℚ} (hx : x ∈ l) : listMin l ≤ x := by
  cases l with
  | nil => cases hx
  | cons y l =>
    rcases List.mem_cons.1 hx with rfl | hx
    · exact foldl_min_le_init l x
    · exact foldl_min_le_mem l y x hx

lemma le_listMax {l : List ℚ} {x : ℚ} (hx : x ∈ l) : x ≤ listMax l := by
  cases l with
  | nil => cases hx
  | cons y l =>
    rcases List.mem_cons.1 hx with rfl | hx
    · exact init_le_foldl_max l x
    · exact mem_le_foldl_max l y x hx

lemma foldl_min_const : ∀ (l : List ℚ) (c : ℚ), (∀ x ∈ l, x = c) → l.foldl min c = c := by
  intro l
  induction l with
  | nil => intro c _; rfl
  | cons x l ih =>
    intro c h
    have hx : x = c := h x (by simp)
    rw [List.foldl_cons, hx, min_self]
    exact ih c (fun y hy => h y (by simp [hy]))

lemma foldl_max_const : ∀ (l : List ℚ) (c : ℚ), (∀ x ∈ l, x = c) → l.foldl max c = c := by
  intro l
  induction l with
  | nil => intro c _; rfl
  | cons x l ih =>
    intro c h
    have hx : x = c := h x (by simp)
    rw [List.foldl_cons, hx, max_self]
    exact ih c (fun y hy => h y (by simp [hy]))

lemma listMin_eq_const {l : List ℚ} {c : ℚ} (hne : l ≠ []) (h : ∀ x ∈ l, x = c) :
    listMin l = c := by
  cases l with
  | nil => exact absurd rfl hne
  | cons x l =>
    have hx : x = c := h x (by simp)
    subst hx
    exact foldl_min_const l x (fun y hy => h y (by simp [hy]))

lemma listMax_eq_const {l : List ℚ} {c : ℚ} (hne : l ≠ []) (h : ∀ x ∈ l, x = c) :
    listMax l = c := by
  cases l with
  | nil => exact absurd rfl hne
  | cons x l =>
    have hx : x = c := h x (by simp)
    subst hx
    exact foldl_max_const l x (fun y hy => h y (by simp [hy]))

lemma getD_map_range {α : Type} (f : ℕ → α) {n i : ℕ} (h : i < n) (d : α) :
    ((List.range n).map f).getD i d = f i := by
  rw [List.getD_eq_getElem?_getD, List.getElem?_map, List.getElem?_range h]
  rfl

lemma flatten_getD_uniform {α : Type} (d : α) :
    ∀ (L : List (List α)) (B v b : ℕ), (∀ l ∈ L, l.length = B) → v < L.length → b < B →
      L.flatten.getD (v * B + b) d = (L.getD v []).getD b d := by
  intro L
  induction L with
  | nil =>
    intro B v b _ hv _
    exact absurd hv (by simp)
  | cons l L ih =>
    intro B v b hlen hv hb
    have hl : l.length = B := hlen l (by simp)
    cases v with
    | zero =>
      rw [List.flatten_cons, Nat.zero_mul, Nat.zero_add, List.getD_eq_getElem?_getD,
        List.getElem?_append_left (by omega), ← List.getD_eq_getElem?_getD]
      rfl
    | succ v =>
      have hidx : (v + 1) * B + b = l.length + (v * B + b) := by rw [hl]; ring
      rw [List.flatten_cons, hidx, List.getD_eq_getElem?_getD,
        List.getElem?_append_right (Nat.le_add_right _ _), Nat.add_sub_cancel_left,
        ← List.getD_eq_getElem?_getD, List.getD_cons_succ]
      exact ih B v b (fun x hx => hlen x (by simp [hx])) (by simpa using hv) hb

lemma sum_countP_eq_length (B : ℕ) (f : ℚ → ℕ) :
    ∀ (xs : List ℚ), (∀ x ∈ xs, f x < B) →
      (∑ j in Finset.range B, xs.countP (fun x => decide (f x = j))) = xs.length := by
  intro xs
  induction xs with
  | nil => intro _; simp
  | cons x xs ih =>
    intro h
    have hx : f x < B := h x (by simp)
    have hxs : ∀ y ∈ xs, f y < B := fun y hy => h y (by simp [hy])
    simp only [List.countP_cons]
    rw [Finset.sum_add_distrib, ih hxs, List.length_cons]
    congr 1
    have hite : ∀ j, (if decide (f x = j) = true then 1 else 0) = if f x = j then 1 else 0 := by
      intro j
      by_cases hj : f x = j <;> simp [hj]
    rw [Finset.sum_congr rfl (fun j _ => hite j),
      Finset.sum_ite_eq (Finset.range B) (f x) (fun _ => 1)]
    simp [hx]

lemma card_filter_range_eq_countP (D : ℕ) (p : ℕ → Prop) [DecidablePred p] :
    ((Finset.range D).filter p).card = (List.range D).countP (fun d => decide (p d)) := by
  induction D with
  | zero => simp
  | succ n ih =>
    rw [Finset.range_succ, List.range_succ, Finset.filter_insert, List.countP_append]
    by_cases h : p n
    · rw [if_pos h, Finset.card_insert_of_not_mem (by simp)]
      simp [ih, h]
    · rw [if_neg h]
      simp [ih, h]

/-! Helper lemmas about the histogram transformer. -/

lemma histLo_le (lo hi : ℚ) : histLo lo hi ≤ lo := by
  rw [histLo]
  split
  · linarith
  · exact le_refl lo

lemma le_histHi (lo hi : ℚ) : hi ≤ histHi lo hi := by
  rw [histHi]
  split
  · linarith
  · exact le_refl hi

lemma binIndex_lt (a b : ℚ) {B : ℕ} (hB : 0 < B) (x : ℚ) : binIndex a b B x < B := by
  rw [binIndex]
  exact lt_of_le_of_lt (Nat.min_le_right _ _) (by omega)

lemma histogramCounts_length (lo hi : ℚ) (B : ℕ) (xs : List ℚ) :
    (histogramCounts lo hi B xs).length = B := by
  rw [histogramCounts, List.length_map, List.length_range]

lemma dayRow_subset_varValues {X : ℕ → ℕ → ℕ → ℚ} {N D s v : ℕ} (hs : s < N) :
    ∀ x ∈ dayRow X D s v, x ∈ varValues X N D v := by
  intro x hx
  exact List.mem_flatMap.2 ⟨s, List.mem_range.2 hs, hx⟩

lemma varValues_ne_nil {X : ℕ → ℕ → ℕ → ℚ} {N D v : ℕ} (hN : 0 < N) (hD : 0 < D) :
    varValues X N D v ≠ [] := by
  apply List.ne_nil_of_mem (a := X 0 v 0)
  apply dayRow_subset_varValues hN
  exact List.mem_map.2 ⟨0, List.mem_range.2 hD, rfl⟩

lemma varValues_const {X : ℕ → ℕ → ℕ → ℚ} {N D v : ℕ} {c : ℚ}
    (h : ∀ s, s < N → ∀ d, d < D → X s v d = c) : ∀ x ∈ varValues X N D v, x = c := by
  intro x hx
  obtain ⟨s, hs, hx⟩ := List.mem_flatMap.1 hx
  obtain ⟨d, hd, rfl⟩ := List.mem_map.1 hx
  exact h s (List.mem_range.1 hs) d (List.mem_range.1 hd)

lemma histogramsForVariable_getD {X : ℕ → ℕ → ℕ → ℚ} {N D B v s : ℕ} (hs : s < N) :
    (histogramsForVariable X N D B v).getD s [] =
      histogramCounts (listMin (varValues X N D v)) (listMax (varValues X N D v)) B
        (dayRow X D s v) := by
  rw [histogramsForVariable, getD_map_range _ hs]

lemma transform_length (X : ℕ → ℕ → ℕ → ℚ) (N V D B : ℕ) :
    (transform X N V D B).length = N := by
  rw [transform, List.length_map, List.length_range]

lemma transform_entry {X : ℕ → ℕ → ℕ → ℚ} {N V D B s v b : ℕ}
    (hs : s < N) (hv : v < V) (hb : b < B) :
    ((transform X N V D B).getD s []).getD (v * B + b) 0 =
      (dayRow X D s v).countP (fun x =>
        decide (histLo (listMin (varValues X N D v)) (listMax (varValues X N D v)) ≤ x ∧
          x ≤ histHi (listMin (varValues X N D v)) (listMax (varValues X N D v)) ∧
          binIndex (histLo (listMin (varValues X N D v)) (listMax (varValues X N D v)))
            (histHi (listMin (varValues X N D v)) (listMax (varValues X N D v))) B x = b)) := by
  have hlen : ∀ l ∈ (List.range V).map
      (fun v => (histogramsForVariable X N D B v).getD s []), l.length = B := by
    intro l hl
    obtain ⟨v', _, rfl⟩ := List.mem_map.1 hl
    rw [histogramsForVariable_getD hs]
    exact histogramCounts_length _ _ _ _
  have hvlen : v < ((List.range V).map
      (fun v => (histogramsForVariable X N D B v).getD s [])).length := by
    simpa using hv
  rw [transform, getD_map_range _ hs, flatten_getD_uniform 0 _ B v b hlen hvlen hb,
    getD_map_range _ hv, histogramsForVariable_getD hs, histogramCounts, getD_map_range _ hb]

lemma binIndex_eq_iff_fallsInBin {a b x : ℚ} {B i : ℕ}
    (hab : a < b) (hi : i < B) (hx1 : a ≤ x) (hx2 : x ≤ b) :
    binIndex a b B x = i ↔ fallsInBin a b B i x := by
  have hw : (0:ℚ) < b - a := sub_pos.2 hab
  have hB1 : 1 ≤ B := by omega
  have hBQ : (0:ℚ) < (B:ℚ) := by exact_mod_cast (by omega : 0 < B)
  have hq0 : (0:ℚ) ≤ (B:ℚ) * (x - a) / (b - a) :=
    div_nonneg (mul_nonneg hBQ.le (sub_nonneg.2 hx1)) hw.le
  have hfl0 : 0 ≤ ⌊(B:ℚ) * (x - a) / (b - a)⌋ := Int.floor_nonneg.2 hq0
  have hcastB : ((B - 1 : ℕ) : ℚ) = (B:ℚ) - 1 := by
    push_cast [Nat.cast_sub hB1]
    ring
  rcases eq_or_lt_of_le hx2 with heq | hlt
  · subst heq
    have hq : (B:ℚ) * (x - a) / (x - a) = (B:ℚ) := by
      field_simp
    rw [binIndex, hq, Int.floor_natCast, Int.toNat_natCast, min_eq_right (Nat.sub_le B 1)]
    constructor
    · rintro rfl
      refine ⟨?_, Or.inr ⟨rfl, le_refl x⟩⟩
      have hdivpos : (0:ℚ) < (x - a) / B := div_pos hw hBQ
      have hexp : ((B:ℚ) - 1) * ((x - a) / B) = (x - a) - (x - a) / B := by
        field_simp
        ring
      rw [hcastB, hexp]
      linarith
    · rintro ⟨_, h2 | ⟨h2, _⟩⟩
      · exfalso
        have he : ((i:ℚ) + 1) * ((x - a) / B) = ((i:ℚ) + 1) * (x - a) / B := by ring
        have h2' : (x - a) < ((i:ℚ) + 1) * (x - a) / B := by
          rw [← he]
          linarith
        rw [lt_div_iff₀ hBQ] at h2'
        have hBi : (B:ℚ) < (i:ℚ) + 1 := by
          have hmul : (B:ℚ) * (x - a) < ((i:ℚ) + 1) * (x - a) := by nlinarith
          exact lt_of_mul_lt_mul_right hmul hw.le
        have : B < i + 1 := by exact_mod_cast hBi
        omega
      · exact h2.symm
  · have hqlt : (B:ℚ) * (x - a) / (b - a) < (B:ℚ) := by
      rw [div_lt_iff₀ hw]
      nlinarith
    have hfl_lt : ⌊(B:ℚ) * (x - a) / (b - a)⌋ < (B:ℤ) := by
      have h1 : ((⌊(B:ℚ) * (x - a) / (b - a)⌋ : ℚ)) < (B:ℚ) :=
        lt_of_le_of_lt (Int.floor_le _) hqlt
      exact_mod_cast h1
    have htn : (⌊(B:ℚ) * (x - a) / (b - a)⌋).toNat ≤ B - 1 := by omega
    rw [binIndex, min_eq_left htn]
    have hiff : ((⌊(B:ℚ) * (x - a) / (b - a)⌋).toNat = i) ↔
        ⌊(B:ℚ) * (x - a) / (b - a)⌋ = (i : ℤ) := by omega
    rw [hiff, Int.floor_eq_iff]
    push_cast
    constructor
    · rintro ⟨h1, h2⟩
      constructor
      · rw [le_div_iff₀ hw] at h1
        have h1' : (i:ℚ) * ((b - a) / B) ≤ x - a := by
          rw [mul_div_assoc', div_le_iff₀ hBQ]
          nlinarith
        linarith
      · left
        rw [div_lt_iff₀ hw] at h2
        have h2' : x - a < ((i:ℚ) + 1) * ((b - a) / B) := by
          rw [mul_div_assoc', lt_div_iff₀ hBQ]
          nlinarith
        linarith
    · rintro ⟨h1, h2⟩
      constructor
      · rw [le_div_iff₀ hw]
        have h1' : (i:ℚ) * ((b - a) / B) ≤ x - a := by linarith
        rw [mul_div_assoc', div_le_iff₀ hBQ] at h1'
        nlinarith
      · rcases h2 with h2 | ⟨h2, _⟩
        · rw [div_lt_iff₀ hw]
          have h2' : x - a < ((i:ℚ) + 1) * ((b - a) / B) := by linarith
          rw [mul_div_assoc', lt_div_iff₀ hBQ] at h2'
          nlinarith
        · subst h2
          rw [hcastB]
          linarith [hqlt]

lemma binIndex_const (c : ℚ) (B : ℕ) :
    binIndex (histLo c c) (histHi c c) B c = B / 2 := by
  have h1 : histLo c c = c - 1/2 := if_pos rfl
  have h2 : histHi c c = c + 1/2 := if_pos rfl
  rw [binIndex, h1, h2]
  have harg : (B:ℚ) * (c - (c - 1/2)) / (c + 1/2 - (c - 1/2)) = (B:ℚ) / 2 := by
    ring_nf
  rw [harg]
  have hfl : ⌊(B:ℚ) / 2⌋ = ((B / 2 : ℕ) : ℤ) := by
    rw [Int.floor_eq_iff]
    constructor
    · push_cast
      rw [le_div_iff₀ (by norm_num : (0:ℚ) < 2)]
      exact_mod_cast Nat.div_mul_le_self B 2
    · push_cast
      rw [div_lt_iff₀ (by norm_num : (0:ℚ) < 2)]
      exact_mod_cast (by omega : B < (B / 2 + 1) * 2)
  rw [hfl, Int.toNat_natCast]
  exact min_eq_left (by omega)

/-! Theorems for the individual claims. -/

/-- C1 (amended): transform returns an (N, V*B) matrix laid out variable-major,
bin-minor, and for every variable whose batch range is non-degenerate
(min < max over all samples and days), entry (s, v*B + b) is the number of days d
for which X s v d falls into bin b of the fixed-width B-bin partition of
[min, max] of variable v. (The counterexample shows the entry formula fails as
stated for a degenerate variable, where np.histogram replaces the range by
[min - 1/2, max + 1/2].) -/
theorem claimC1 (X : ℕ → ℕ → ℕ → ℚ) (N V D B : ℕ) :
    (transform X N V D B).length = N ∧
    (∀ row ∈ transform X N V D B, row.length = V * B) ∧
    (∀ s, s < N → ∀ v, v < V → ∀ b, b < B →
      listMin (varValues X N D v) < listMax (varValues X N D v) →
      ((transform X N V D B).getD s []).getD (v * B + b) 0 =
        ((Finset.range D).filter
          (fun d => fallsInBin (listMin (varValues X N D v)) (listMax (varValues X N D v))
            B b (X s v d))).card) := by
  refine ⟨transform_length X N V D B, ?_, ?_⟩
  · intro row hrow
    rw [transform] at hrow
    obtain ⟨s, hs, rfl⟩ := List.mem_map.1 hrow
    have hmem : ∀ x ∈ (List.range V).map
        (List.length ∘ fun v => (histogramsForVariable X N D B v).getD s []), x = B := by
      intro x hx
      obtain ⟨v', _, rfl⟩ := List.mem_map.1 hx
      rw [Function.comp_apply, histogramsForVariable_getD (List.mem_range.1 hs)]
      exact histogramCounts_length _ _ _ _
    rw [List.length_flatten, List.map_map, List.eq_replicate_of_mem hmem,
      List.sum_replicate, smul_eq_mul, List.length_map, List.length_range]
  · intro s hs v hv b hb hlt
    have hne : listMin (varValues X N D v) ≠ listMax (varValues X N D v) := ne_of_lt hlt
    have hLo : histLo (listMin (varValues X N D v)) (listMax (varValues X N D v)) =
        listMin (varValues X N D v) := if_neg hne
    have hHi : histHi (listMin (varValues X N D v)) (listMax (varValues X N D v)) =
        listMax (varValues X N D v) := if_neg hne
    rw [transform_entry hs hv hb, hLo, hHi]
    have hcongr : (dayRow X D s v).countP (fun x =>
        decide (listMin (varValues X N D v) ≤ x ∧ x ≤ listMax (varValues X N D v) ∧
          binIndex (listMin (varValues X N D v)) (listMax (varValues X N D v)) B x = b)) =
        (dayRow X D s v).countP (fun x =>
          decide (fallsInBin (listMin (varValues X N D v)) (listMax (varValues X N D v))
            B b x)) := by
      apply List.countP_congr
      intro x hx
      have hmem := dayRow_subset_varValues hs x hx
      have hx1 : listMin (varValues X N D v) ≤ x := listMin_le hmem
      have hx2 : x ≤ listMax (varValues X N D v) := le_listMax hmem
      simp only [decide_eq_true_eq]
      rw [← binIndex_eq_iff_fallsInBin hlt hb hx1 hx2]
      constructor
      · rintro ⟨_, _, h3⟩
        exact h3
      · intro h3
        exact ⟨hx1, hx2, h3⟩
    rw [hcongr, dayRow, List.countP_map, card_filter_range_eq_countP]
    rfl

/-- C1 witness: a 1-sample, 1-variable, 2-day tensor with values 0 and 1 and
B = 2 bins, instantiating the non-degenerate entry formula at bin 0. -/
theorem claimC1_witness :
    ((transform rampTensor 1 1 2 2).getD 0 []).getD (0 * 2 + 0) 0 =
      ((Finset.range 2).filter
        (fun d => fallsInBin (listMin (varValues rampTensor 1 2 0))
          (listMax (varValues rampTensor 1 2 0)) 2 0 (rampTensor 0 0 d))).card :=
  (claimC1 rampTensor 1 1 2 2).2.2 0 (by norm_num) 0 (by norm_num) 0 (by norm_num)
    (by with_unfolding_all decide)

/-- C1 counterexample: the constant-zero 1×1×1 tensor with B = 3 bins. The batch
range of the single variable is degenerate ([0, 0]); the code places the single
day value in bin 1 (the middle bin of the expanded range [-1/2, 1/2]), while no
day value falls into bin 1 of the fixed-width 3-bin partition of [0, 0] as the
claim states it (under the last-bin-closed convention the value would sit in
bin 2). -/
theorem claimC1_counterexample :
    ((transform (constTensor 0) 1 1 1 3).getD 0 []).getD (0 * 3 + 1) 0 = 1 ∧
    ((Finset.range 1).filter
      (fun d => fallsInBin (listMin (varValues (constTensor 0) 1 1 0))
        (listMax (varValues (constTensor 0) 1 1 0)) 3 1 (constTensor 0 0 0 d))).card = 0 := by
  constructor
  · with_unfolding_all decide
  · with_unfolding_all decide

/-- C2: each per-sample, per-variable block of B bin counts in the transform
output sums exactly to D — the histogram range of a variable is the batch-global
minimum and maximum of that variable, so every day value lands in exactly one of
the B bins. -/
theorem claimC2 (X : ℕ → ℕ → ℕ → ℚ) (N V D B s v : ℕ)
    (hB : 0 < B) (hs : s < N) (hv : v < V) :
    (∑ b in Finset.range B, ((transform X N V D B).getD s []).getD (v * B + b) 0) = D := by
  have hentries : ∀ b ∈ Finset.range B,
      ((transform X N V D B).getD s []).getD (v * B + b) 0 =
        (dayRow X D s v).countP (fun x =>
          decide (histLo (listMin (varValues X N D v)) (listMax (varValues X N D v)) ≤ x ∧
            x ≤ histHi (listMin (varValues X N D v)) (listMax (varValues X N D v)) ∧
            binIndex (histLo (listMin (varValues X N D v)) (listMax (varValues X N D v)))
              (histHi (listMin (varValues X N D v)) (listMax (varValues X N D v))) B x = b)) :=
    fun b hb => transform_entry hs hv (Finset.mem_range.1 hb)
  rw [Finset.sum_congr rfl hentries]
  have hbound : ∀ x ∈ dayRow X D s v,
      histLo (listMin (varValues X N D v)) (listMax (varValues X N D v)) ≤ x ∧
      x ≤ histHi (listMin (varValues X N D v)) (listMax (varValues X N D v)) := by
    intro x hx
    have hmem := dayRow_subset_varValues hs x hx
    exact ⟨le_trans (histLo_le _ _) (listMin_le hmem),
      le_trans (le_listMax hmem) (le_histHi _ _)⟩
  have hcongr : ∀ b, (dayRow X D s v).countP (fun x =>
      decide (histLo (listMin (varValues X N D v)) (listMax (varValues X N D v)) ≤ x ∧
        x ≤ histHi (listMin (varValues X N D v)) (listMax (varValues X N D v)) ∧
        binIndex (histLo (listMin (varValues X N D v)) (listMax (varValues X N D v)))
          (histHi (listMin (varValues X N D v)) (listMax (varValues X N D v))) B x = b)) =
      (dayRow X D s v).countP (fun x =>
        decide (binIndex (histLo (listMin (varValues X N D v)) (listMax (varValues X N D v)))
          (histHi (listMin (varValues X N D v)) (listMax (varValues X N D v))) B x = b)) := by
    intro b
    apply List.countP_congr
    intro x hx
    simp only [decide_eq_true_eq]
    constructor
    · rintro ⟨_, _, h3⟩
      exact h3
    · intro h3
      exact ⟨(hbound x hx).1, (hbound x hx).2, h3⟩
  rw [Finset.sum_congr rfl (fun b _ => hcongr b),
    sum_countP_eq_length B _ _ (fun x _ => binIndex_lt _ _ hB x)]
  simp [dayRow]

/-- C2 witness: the 1-sample, 1-variable, 3-day tensor with values 0, 1, 2 and
B = 2 bins; the single block of bin counts sums to 3. -/
theorem claimC2_witness :
    (∑ b in Finset.range 2,
      ((transform (fun _ _ d => (d:ℚ)) 1 1 3 2).getD 0 []).getD (0 * 2 + b) 0) = 3 :=
  claimC2 (fun _ _ d => (d:ℚ)) 1 1 3 2 0 0 (by norm_num) (by norm_num) (by norm_num)

/-- C3 (amended): _get_labels maps a sample to 1 exactly when its label row
contains the value 1 (the code tests `1 in a`), and to 0 otherwise; on 0/1-valued
label tensors this coincides with the any-positive-day reduction of the claim
(e.g. [[0,0,1,0],[0,0,0,0],[1,1,1,1]] ↦ [1,0,1]). (The counterexample shows the
any-positive reading fails for a row holding the positive value 2.) -/
theorem claimC3 (raw : List (List ℚ)) :
    (getLabels raw).length = raw.length ∧
    ∀ s, s < raw.length →
      ((getLabels raw).getD s 0 = if (1:ℚ) ∈ raw.getD s [] then 1 else 0) ∧
      ((∀ x ∈ raw.getD s [], x = 0 ∨ x = 1) →
        (((getLabels raw).getD s 0 = 1) ↔ ∃ x ∈ raw.getD s [], 0 < x) ∧
        (((getLabels raw).getD s 0 = 0) ↔ ¬ ∃ x ∈ raw.getD s [], 0 < x)) := by
  constructor
  · exact List.length_map raw _
  · intro s hs
    have hget : (getLabels raw).getD s 0 = if (1:ℚ) ∈ raw.getD s [] then 1 else 0 := by
      rw [getLabels, List.getD_eq_getElem?_getD, List.getElem?_map,
        List.getElem?_eq_getElem hs]
      rw [List.getD_eq_getElem?_getD, List.getElem?_eq_getElem hs]
      rfl
    refine ⟨hget, ?_⟩
    intro h01
    by_cases hmem : (1:ℚ) ∈ raw.getD s []
    · rw [hget, if_pos hmem]
      constructor
      · exact ⟨fun _ => ⟨1, hmem, one_pos⟩, fun _ => rfl⟩
      · constructor
        · intro h
          exact absurd h one_ne_zero
        · intro h
          exact absurd ⟨1, hmem, one_pos⟩ h
    · have hzero : ∀ x ∈ raw.getD s [], x = 0 := by
        intro x hx
        rcases h01 x hx with h | h
        · exact h
        · exact absurd (h ▸ hx) hmem
      rw [hget, if_neg hmem]
      have hnopos : ¬ ∃ x ∈ raw.getD s [], 0 < x := by
        rintro ⟨x, hx, hpos⟩
        rw [hzero x hx] at hpos
        exact lt_irrefl 0 hpos
      constructor
      · exact ⟨fun h => absurd h zero_ne_one, fun h => absurd h hnopos⟩
      · exact ⟨fun _ => hnopos, fun _ => rfl⟩

/-- C3 witness: the spec's example tensor [[0,0,1,0],[0,0,0,0],[1,1,1,1]] maps to
[1,0,1]; its first row is 0/1-valued and its label is 1 iff some day is
positive. -/
theorem claimC3_witness :
    getLabels [[0,0,1,0],[0,0,0,0],[1,1,1,1]] = [1,0,1] ∧
    (getLabels [[0,0,1,0],[0,0,0,0],[1,1,1,1]]).length =
      ([[0,0,1,0],[0,0,0,0],[1,1,1,1]] : List (List ℚ)).length ∧
    (((getLabels [[0,0,1,0],[0,0,0,0],[1,1,1,1]]).getD 0 0 = 1) ↔
      ∃ x ∈ ([[0,0,1,0],[0,0,0,0],[1,1,1,1]] : List (List ℚ)).getD 0 [], 0 < x) := by
  refine ⟨by with_unfolding_all decide, (claimC3 _).1, ?_⟩
  exact (((claimC3 [[0,0,1,0],[0,0,0,0],[1,1,1,1]]).2 0 (by norm_num)).2
    (by intro x hx; fin_cases hx <;> norm_num)).1

/-- C3 counterexample: a label tensor whose single row holds the positive day
value 2; the claim's any-positive-day reduction demands label 1, but the code
(`1 if 1 in a else 0`) produces 0. -/
theorem claimC3_counterexample :
    getLabels [[(2:ℚ)]] = [0] ∧ (0:ℚ) < 2 := by
  constructor
  · with_unfolding_all decide
  · norm_num

/-! Helper lemmas about label counting and resampling. -/

lemma countLabel_append (xs ys : List ℚ) (c : ℚ) :
    countLabel (xs ++ ys) c = countLabel xs c + countLabel ys c :=
  List.countP_append _ _ _

lemma countLabel_replicate (n : ℕ) (a c : ℚ) :
    countLabel (List.replicate n a) c = if a = c then n else 0 := by
  rw [countLabel, List.countP_replicate]
  by_cases h : a = c
  · rw [if_pos h, if_pos (by simp [h])]
  · rw [if_neg h, if_neg (by simp [h])]

lemma countLabel_smoteLabels (ys : List ℚ) :
    countLabel (smoteLabels ys) 0 = countLabel (smoteLabels ys) 1 := by
  rw [smoteLabels, countLabel_append, countLabel_append, countLabel_append,
    countLabel_append, countLabel_replicate, countLabel_replicate, countLabel_replicate,
    countLabel_replicate, if_pos rfl, if_pos rfl, if_neg (by norm_num : (1:ℚ) ≠ 0),
    if_neg (by norm_num : (0:ℚ) ≠ 1)]
  omega

lemma labelImbalance_smoteLabels (ys : List ℚ) : labelImbalance (smoteLabels ys) = 0 := by
  rw [labelImbalance, ← countLabel_smoteLabels, sub_self, abs_zero, zero_div]

/-- C4 (amended): the test features and labels returned by
preprocess_as_prediction are exactly the test portion produced by the stratified
split, untouched by resampling, and the returned training labels are perfectly
balanced (equal counts of the two classes); whenever the original label vector is
imbalanced this is strictly more balanced than the original. (The counterexample
shows strictness fails as claimed when the original labels are already
balanced.) -/
theorem claimC4 (F : FeatMatrix) (labels : List ℚ)
    (split : FeatMatrix → List ℚ → SplitResult) (synth : FeatMatrix) :
    (splitAndResample F labels split synth).Xtest =
      (split (F.map (fun r => r.map nanToNum)) labels).Xtest ∧
    (splitAndResample F labels split synth).ytest =
      (split (F.map (fun r => r.map nanToNum)) labels).ytest ∧
    countLabel (splitAndResample F labels split synth).ytrain 0 =
      countLabel (splitAndResample F labels split synth).ytrain 1 ∧
    (0 < labelImbalance labels →
      labelImbalance (splitAndResample F labels split synth).ytrain <
        labelImbalance labels) := by
  refine ⟨rfl, rfl, countLabel_smoteLabels _, ?_⟩
  intro h
  have hre : (splitAndResample F labels split synth).ytrain =
      smoteLabels (split (F.map (fun r => r.map nanToNum)) labels).ytrain := rfl
  rw [hre, labelImbalance_smoteLabels]
  exact h

/-- C4 witness: an imbalanced label vector [0,0,0,1] (imbalance 1/2) with a
trivial split putting everything in the training partition; the resampled
training labels are balanced and strictly more balanced than the original. -/
theorem claimC4_witness :
    0 < labelImbalance [0,0,0,1] ∧
    labelImbalance (splitAndResample [] [0,0,0,1]
      (fun f l => SplitResult.mk f [] l []) []).ytrain < labelImbalance [0,0,0,1] :=
  ⟨by with_unfolding_all decide,
    (claimC4 [] [0,0,0,1] (fun f l => SplitResult.mk f [] l []) []).2.2.2
      (by with_unfolding_all decide)⟩

/-- C4 counterexample: a balanced original label vector (five 0s, five 1s) with a
stratified 80/20 split; SMOTE leaves the already-balanced training labels
[0,1,0,1,0,1,0,1] unchanged, so the returned training distribution is not
strictly more balanced than the original, contradicting the claim as stated. -/
theorem claimC4_counterexample :
    (preprocessAsPrediction (Except.error ReadError.fileNotFound)
        ([[PyFloat.fin 1],[PyFloat.fin 2],[PyFloat.fin 3],[PyFloat.fin 4],[PyFloat.fin 5],
          [PyFloat.fin 6],[PyFloat.fin 7],[PyFloat.fin 8],[PyFloat.fin 9],[PyFloat.fin 10]],
          [])
        [0,1,0,1,0,1,0,1,0,1]
        (fun f l => SplitResult.mk (f.take 8) (f.drop 8) (l.take 8) (l.drop 8)) []).map
      (fun r => r.1.ytrain) = Except.ok [0,1,0,1,0,1,0,1] ∧
    ¬ (labelImbalance [0,1,0,1,0,1,0,1] < labelImbalance [0,1,0,1,0,1,0,1,0,1]) := by
  constructor
  · with_unfolding_all rfl
  · with_unfolding_all decide

/-- C5: when the binary label vector derived by _get_labels has fewer than k
positive samples, the stratified fold construction of evaluate_simulated fails
with a configuration error that propagates to the caller, and no score or metric
record is produced. (The StratifiedKFold failure contract is modelled from the
spec; sklearn is an external collaborator.) -/
theorem claimC5 (defLabel : String) (k : ℕ) (rawLabels : List (List ℚ))
    (foldScores : List (List ℚ)) (hk : countLabel (getLabels rawLabels) 1 < k) :
    evaluateSimulated defLabel k rawLabels foldScores = Except.error nSplitsErrMsg := by
  rw [evaluateSimulated, stratifiedKFoldCheck, if_pos (Or.inl hk)]

/-- C5 witness: 95 negative and 5 positive samples with k = 10 requested folds
raise the configuration error. -/
theorem claimC5_witness :
    countLabel (getLabels (List.replicate 95 [(0:ℚ)] ++ List.replicate 5 [1])) 1 < 10 ∧
    evaluateSimulated "CP07" 10 (List.replicate 95 [(0:ℚ)] ++ List.replicate 5 [1]) [] =
      Except.error nSplitsErrMsg :=
  ⟨by with_unfolding_all decide,
    claimC5 "CP07" 10 (List.replicate 95 [(0:ℚ)] ++ List.replicate 5 [1]) []
      (by with_unfolding_all decide)⟩

/-- C6 (amended): preprocess_as_prediction replaces every NaN in the feature
matrix — cached or freshly computed — by zero and every ±infinity by ±DBL_MAX
(np.nan_to_num's substitutes), so every value fed onward is finite, and this
replacement is applied to the matrix before the train/test split and before any
training. (The counterexample shows infinities are not replaced by zero as
claimed.) -/
theorem claimC6 :
    (∀ w : PyFloat, isFinite (nanToNum w) = true) ∧
    nanToNum PyFloat.nan = PyFloat.fin 0 ∧
    nanToNum PyFloat.posinf = PyFloat.fin floatMax ∧
    nanToNum PyFloat.neginf = PyFloat.fin (-floatMax) ∧
    (∀ F labels split synth,
      splitAndResample F labels split synth =
        SplitResult.mk
          ((split (F.map (fun r => r.map nanToNum)) labels).Xtrain ++ synth)
          ((split (F.map (fun r => r.map nanToNum)) labels).Xtest)
          (smoteLabels (split (F.map (fun r => r.map nanToNum)) labels).ytrain)
          ((split (F.map (fun r => r.map nanToNum)) labels).ytest)) ∧
    (∀ F keys computed labels split synth,
      preprocessAsPrediction (Except.ok (F, keys)) computed labels split synth =
        Except.ok (splitAndResample F labels split synth, false)) ∧
    (∀ computed labels split synth,
      preprocessAsPrediction (Except.error ReadError.fileNotFound) computed labels
        split synth = Except.ok (splitAndResample computed.1 labels split synth, true)) :=
  ⟨fun w => by cases w <;> rfl, rfl, rfl, rfl, fun _ _ _ _ => rfl,
    fun _ _ _ _ _ _ => rfl, fun _ _ _ _ => rfl⟩

/-- C6 counterexample: a cached feature matrix holding +infinity; the value is
replaced by DBL_MAX (the largest finite double), not by zero as the claim
states. -/
theorem claimC6_counterexample :
    nanToNum PyFloat.posinf = PyFloat.fin floatMax ∧
    PyFloat.fin floatMax ≠ PyFloat.fin 0 ∧
    (preprocessAsPrediction (Except.ok ([[PyFloat.posinf]], [])) ([], []) [0]
        (fun f l => SplitResult.mk f [] l []) []).map (fun r => r.1.Xtrain) =
      Except.ok [[PyFloat.fin floatMax]] := by
  refine ⟨rfl, ?_, rfl⟩
  intro h
  have hfm : floatMax = 0 := by injection h
  have : floatMax ≠ 0 := by
    rw [floatMax]
    norm_num
  exact this hfm

/-- C7: the source of preprocess_as_prediction performs no compatibility check on
a loaded cache record: a cached record whose feature-key list is incompatible
with the current run (here an empty key list next to a 2-column matrix) is used
as-is for splitting and training, with no configuration error raised. This
contradicts the claim (and the spec's stated intent), so the claim is recorded as
a code bug; this theorem evaluates the code at the failing input. -/
theorem claimC7 :
    preprocessAsPrediction (Except.ok ([[PyFloat.fin 1, PyFloat.fin 2]], [])) ([], [])
        [0, 1] (fun f l => SplitResult.mk f [] l []) [] =
      Except.ok (SplitResult.mk [[PyFloat.fin 1, PyFloat.fin 2]] []
        (smoteLabels [0, 1]) [], false) :=
  rfl

/-- C8: a variable that is constant across the whole batch does not make
transform fail: for every sample, all D day values of that variable land in the
single bin B/2 (the middle bin of np.histogram's expanded degenerate range) and
every other bin count of the variable's block is zero. -/
theorem claimC8 (X : ℕ → ℕ → ℕ → ℚ) (N V D B v : ℕ) (c : ℚ) (hN : 0 < N) (hD : 0 < D)
    (hB : 0 < B) (hv : v < V) (hconst : ∀ s, s < N → ∀ d, d < D → X s v d = c) :
    (transform X N V D B).length = N ∧
    ∀ s, s < N →
      ((transform X N V D B).getD s []).getD (v * B + B / 2) 0 = D ∧
      ∀ b, b < B → b ≠ B / 2 →
        ((transform X N V D B).getD s []).getD (v * B + b) 0 = 0 := by
  have hval : ∀ x ∈ varValues X N D v, x = c := varValues_const hconst
  have hne : varValues X N D v ≠ [] := varValues_ne_nil hN hD
  have hlo : listMin (varValues X N D v) = c := listMin_eq_const hne hval
  have hhi : listMax (varValues X N D v) = c := listMax_eq_const hne hval
  have hday : ∀ s, s < N → ∀ x ∈ dayRow X D s v, x = c := by
    intro s hs x hx
    obtain ⟨d, hd, rfl⟩ := List.mem_map.1 hx
    exact hconst s hs d (List.mem_range.1 hd)
  refine ⟨transform_length X N V D B, ?_⟩
  intro s hs
  have hBhalf : B / 2 < B := by omega
  constructor
  · have hlen : (dayRow X D s v).length = D := by
      rw [dayRow, List.length_map, List.length_range]
    have hcount : (dayRow X D s v).countP (fun x =>
        decide (histLo c c ≤ x ∧ x ≤ histHi c c ∧
          binIndex (histLo c c) (histHi c c) B x = B / 2)) = (dayRow X D s v).length := by
      apply List.countP_eq_length.2
      intro x hx
      have hxc : x = c := hday s hs x hx
      subst hxc
      simp only [decide_eq_true_eq]
      refine ⟨?_, ?_, binIndex_const x B⟩
      · rw [histLo, if_pos rfl]
        linarith
      · rw [histHi, if_pos rfl]
        linarith
    rw [transform_entry hs hv hBhalf, hlo, hhi, hcount, hlen]
  · intro b hb hbne
    rw [transform_entry hs hv hb, hlo, hhi]
    apply List.countP_eq_zero.2
    intro x hx
    have hxc : x = c := hday s hs x hx
    subst hxc
    simp only [decide_eq_true_eq]
    rintro ⟨_, _, h3⟩
    exact hbne (((binIndex_const x B).symm.trans h3).symm)

/-- C8 witness: the constant-5 tensor with 2 samples, 1 variable, 3 days and
B = 4 bins: all 3 day values of sample 0 land in bin 2 = 4/2 and bin 1 is
empty. -/
theorem claimC8_witness :
    (transform (constTensor 5) 2 1 3 4).length = 2 ∧
    ((transform (constTensor 5) 2 1 3 4).getD 0 []).getD (0 * 4 + 4 / 2) 0 = 3 ∧
    ((transform (constTensor 5) 2 1 3 4).getD 0 []).getD (0 * 4 + 1) 0 = 0 := by
  have h := claimC8 (constTensor 5) 2 1 3 4 0 5 (by norm_num) (by norm_num) (by norm_num)
    (by norm_num) (fun _ _ _ _ => rfl)
  exact ⟨h.1, (h.2 0 (by norm_num)).1, (h.2 0 (by norm_num)).2 1 (by norm_num) (by norm_num)⟩

/-- C9: the transformer carries no hidden mutable state: fit returns the object
unchanged, any sequence of interleaved fit/transform calls leaves the object
exactly as constructed, and hence two transform calls on the same tensor — with
arbitrary interleaved calls on other data between them — give identical output,
determined solely by the input tensor and n_bins. -/
theorem claimC9 (t : HistogramTransformerS) (cs1 cs2 : List HTCall) (X : TensorIn) :
    htRun t cs1 = t ∧
    htTransform (htRun t cs1) X = htTransform (htRun t cs2) X ∧
    htFit t X = t := by
  have hrun : ∀ (cs : List HTCall) (u : HistogramTransformerS), htRun u cs = u := by
    intro cs
    induction cs with
    | nil => intro u; rfl
    | cons cHead csTail ih =>
      intro u
      have hstep : htStep u cHead = u := by cases cHead <;> rfl
      have : htRun u (cHead :: csTail) = htRun (htStep u cHead) csTail := rfl
      rw [this, hstep]
      exact ih u
  exact ⟨hrun cs1 t, by rw [hrun cs1 t, hrun cs2 t], rfl⟩

/-- C10: in preprocess_as_prediction the only failure treated as a cache miss is
a missing file: FileNotFoundError triggers recomputation (and the cache write);
every other failure while opening or deserialising the cached blob propagates to
the caller unchanged, with no fallback to recomputation; and a successfully read
cached matrix is used as-is — the result is the same function of the cached
matrix and labels for every shape, with no validation against the label
vector. -/
theorem claimC10 :
    (∀ m computed labels split synth,
      preprocessAsPrediction (Except.error (ReadError.otherError m)) computed labels
        split synth = Except.error (ReadError.otherError m)) ∧
    (∀ computed labels split synth,
      preprocessAsPrediction (Except.error ReadError.fileNotFound) computed labels
        split synth = Except.ok (splitAndResample computed.1 labels split synth, true)) ∧
    (∀ F keys computed labels split synth,
      preprocessAsPrediction (Except.ok (F, keys)) computed labels split synth =
        Except.ok (splitAndResample F labels split synth, false)) :=
  ⟨fun _ _ _ _ _ => rfl, fun _ _ _ _ => rfl, fun _ _ _ _ _ _ => rfl⟩

end DSLab
